import Mathlib

/-!
Shallow embedding of `src/index.js`: a small weighted directed graph
("trace latency") engine consisting of

* `parse` — builds the adjacency structure from the raw CSV text
  (the `fs.readFileSync` call is modelled by passing the file's
  contents as the argument);
* `getLatency` — sums edge weights along an explicitly given path,
  returning the string result `'NO SUCH TRACE'` when a consecutive
  pair has no edge;
* `find` / `recurse` — the depth-first traversal engine driven by a
  caller-supplied three-way predicate (`STOP` / `CONTINUE` /
  `INCLUDE`).

JavaScript objects keyed by node identifiers are modelled as
insertion-ordered association lists (`Object.entries` enumerates
non-numeric string keys in insertion order, which is the situation for
every key the program creates).  JavaScript numbers that actually occur
in this program are integers, `NaN` (from coercing a malformed weight
field) and `Number.POSITIVE_INFINITY` (the initial running minimum in
one test), so they are modelled by the three-constructor type `JSNum`.
The unbounded recursion of `recurse` is modelled with explicit fuel:
`none` means the fuel ran out before the traversal finished, and every
statement about traversal outcomes is conditioned on a `some` result.
-/

set_option autoImplicit false

namespace Instana

/-- The JavaScript numbers this program can produce: integers, `NaN`
(coercion of a non-numeric weight field) and `Infinity` (initial
running minimum in the shortest-trace tests). -/
inductive JSNum where
  | num (n : Int)
  | nan
  | inf
deriving DecidableEq

/-- JavaScript `+` on the numbers of this program: `NaN` propagates,
`Infinity` absorbs finite summands. -/
def JSNum.add : JSNum → JSNum → JSNum
  | .nan, _ => .nan
  | _, .nan => .nan
  | .inf, _ => .inf
  | _, .inf => .inf
  | .num a, .num b => .num (a + b)

/-- JavaScript `>=` on the numbers of this program: any comparison with
`NaN` is false, `Infinity >= x` is true, a finite number is never
`>= Infinity`. -/
def JSNum.ge : JSNum → JSNum → Bool
  | .nan, _ => false
  | _, .nan => false
  | .inf, _ => true
  | .num _, .inf => false
  | .num a, .num b => decide (b ≤ a)

/-- Node identifiers are JavaScript strings (single characters in the
reference data; the string "undefined" models indexing past the end of
a record). -/
abbrev Node := String

/-- The adjacency structure built by `parse`: node identifier to
(neighbour identifier to weight), as insertion-ordered association
lists. -/
abbrev Graph := List (Node × List (Node × JSNum))

/-- `graph[start] || {}` (lines 35 and 50 of `src/index.js`): the inner
mapping of a node, an empty mapping when the node is absent. -/
def neighborsOf (g : Graph) (key : Node) : List (Node × JSNum) :=
  (g.lookup key).getD []

/-- JavaScript object assignment `obj[k] = v`: an existing key keeps
its position and gets the new value, a new key is appended. -/
def setKey (m : List (Node × JSNum)) (k : Node) (v : JSNum) : List (Node × JSNum) :=
  match m with
  | [] => [(k, v)]
  | (k₀, v₀) :: rest => if k₀ = k then (k, v) :: rest else (k₀, v₀) :: setKey rest k v

/-- Lines 21–22 of `src/index.js`:
`if (!results[start]) results[start] = {}; results[start][end] = latency`. -/
def insertEdge (g : Graph) (start endNode : Node) (latency : JSNum) : Graph :=
  match g with
  | [] => [(start, [(endNode, latency)])]
  | (k, inner) :: rest =>
    if k = start then (k, setKey inner endNode latency) :: rest
    else (k, inner) :: insertEdge rest start endNode latency

/-- `String.prototype.split` with a one-character separator, on the
character list of the string: `"".split(',')` is `[""]`. -/
def splitChars (sep : Char) : List Char → List (List Char)
  | [] => [[]]
  | c :: rest =>
    match splitChars sep rest with
    | [] => [[]]
    | grp :: grps => if c = sep then [] :: grp :: grps else (c :: grp) :: grps

/-- JavaScript `s.split(sep)` for a one-character separator. -/
def jsSplit (sep : Char) (s : String) : List String :=
  (splitChars sep s.data).map String.mk

/-- JavaScript `s[i]` used as an object key: the one-character string at
index `i`, or the key `"undefined"` when the index is out of range
(indexing past the end yields `undefined`, which stringifies as an
object key). -/
def jsCharAt (s : String) (i : Nat) : Node :=
  match s.data.drop i with
  | [] => "undefined"
  | c :: _ => String.singleton c

/-- JavaScript `s.substr(i)`: the suffix starting at index `i` (empty
when the index is out of range). -/
def jsSubstr (s : String) (i : Nat) : String :=
  String.mk (s.data.drop i)

/-- Decimal digits to a natural number, `none` when some character is
not a digit or the list is empty. -/
def decDigits : List Char → Option Nat
  | [] => none
  | cs => if cs.all (fun c => c.isDigit) then
      some (cs.foldl (fun acc c => acc * 10 + (c.toNat - 48)) 0)
    else none

/-- JavaScript `ToNumber` on a string (the unary `+` of line 19 of
`src/index.js`), restricted to the shapes this program can meet: the
empty string is `0`, an optionally signed decimal integer is its value,
anything else is `NaN` (fractional, hexadecimal, whitespace-padded and
literal-`Infinity` inputs never occur in the data and are not
modelled). -/
def jsToNumber (s : String) : JSNum :=
  match s.data with
  | [] => .num 0
  | '-' :: rest =>
    match decDigits rest with
    | some n => .num (-(n : Int))
    | none => .nan
  | '+' :: rest =>
    match decDigits rest with
    | some n => .num (n : Int)
    | none => .nan
  | cs =>
    match decDigits cs with
    | some n => .num (n : Int)
    | none => .nan

/-- The loop body of `parse` (lines 15–23 of `src/index.js`): decode one
trace record and store it into the accumulated adjacency object. -/
def parseTrace (results : Graph) (trace : String) : Graph :=
  let start := jsCharAt trace 0
  let endNode := jsCharAt trace 1
  let latency := jsToNumber (jsSubstr trace 2)
  insertEdge results start endNode latency

/-- `parse` of `src/index.js` (lines 11–26), with the file's contents
passed directly: split the CSV text on commas and store every record.
The code's own comment is "Assumes that the input is in a valid
format" — there is no validation and no failure path. -/
def parse (content : String) : Graph :=
  (jsSplit ',' content).foldl parseTrace []

/-- The value `getLatency` returns: a number, or the string
`'NO SUCH TRACE'` when a consecutive pair of the path has no edge. -/
inductive LatencyResult where
  | val (n : JSNum)
  | noSuchTrace
deriving DecidableEq

/-- The loop of `getLatency` (lines 32–40 of `src/index.js`): walk the
remaining path, looking up each consecutive pair in the graph and
accumulating the sum; a missing edge short-circuits to
`'NO SUCH TRACE'`. -/
def getLatencyAux (g : Graph) : JSNum → Node → List Node → LatencyResult
  | acc, _, [] => .val acc
  | acc, prev, e :: rest =>
    match (neighborsOf g prev).lookup e with
    | none => .noSuchTrace
    | some latency => getLatencyAux g (acc.add latency) e rest

/-- `getLatency` of `src/index.js` (lines 28–43): sum of the edge
weights along the consecutive pairs of `path`, starting from `0`;
`'NO SUCH TRACE'` when a pair has no edge.  An empty or one-element
path never enters the loop and yields `0`. -/
def getLatency (g : Graph) (path : List Node) : LatencyResult :=
  match path with
  | [] => .val (.num 0)
  | p :: rest => getLatencyAux g (.num 0) p rest

/-- Line 5 of `src/index.js`. -/
def STOP : Int := -1

/-- Line 6 of `src/index.js`. -/
def CONTINUE : Int := 0

/-- Line 7 of `src/index.js`. -/
def INCLUDE : Int := 1

/-- The `{path, latency}` candidate/result object of the traversal. -/
structure TResult where
  path : List Node
  latency : JSNum
deriving DecidableEq

/-- A caller-supplied decision function: receives the candidate result
and the edge endpoints, returns a status (a JavaScript value compared
with `===` against `STOP` and `INCLUDE`, modelled by its integer value)
together with the updated closure state (the source predicates mutate
captured variables; the state is threaded explicitly). -/
abbrev Pred (σ : Type) := TResult → Node → Node → σ → Int × σ

/-- The `for (const [endKey, meanLatency] of Object.entries(parent))`
loop of `recurse` (lines 52–70 of `src/index.js`), abstracted over the
recursive call `recurseF` so that the loop is structural: each entry
forms the candidate, consults the predicate, and per the status skips
(`STOP`), appends and recurses (`INCLUDE`), or just recurses (any other
status). -/
def recurseEntries {σ : Type} (pred : Pred σ)
    (recurseF : Node → List Node → JSNum → List TResult → σ → Option (List TResult × σ)) :
    List (Node × JSNum) → Node → List Node → JSNum → List TResult → σ →
    Option (List TResult × σ)
  | [], _, _, _, results, s => some (results, s)
  | (endKey, meanLatency) :: rest, startKey, startPath, startLatency, results, s =>
    let latency := startLatency.add meanLatency
    let path := startPath ++ [endKey]
    let result : TResult := ⟨path, latency⟩
    match pred result startKey endKey s with
    | (status, s₁) =>
      if status = STOP then
        recurseEntries pred recurseF rest startKey startPath startLatency results s₁
      else
        let results₁ := if status = INCLUDE then results ++ [result] else results
        match recurseF endKey path latency results₁ s₁ with
        | none => none
        | some (results₂, s₂) =>
          recurseEntries pred recurseF rest startKey startPath startLatency results₂ s₂

/-- `recurse` of `src/index.js` (lines 49–73), with explicit fuel
bounding the recursion depth (the source recursion is unbounded and the
spec makes termination the caller's responsibility): `none` means the
fuel was exhausted before this subtree was fully traversed. -/
def recurse {σ : Type} (g : Graph) (pred : Pred σ) :
    Nat → Node → List Node → JSNum → List TResult → σ → Option (List TResult × σ)
  | 0, _, _, _, _, _ => none
  | fuel + 1, startKey, startPath, startLatency, results, s =>
    recurseEntries pred (recurse g pred fuel) (neighborsOf g startKey)
      startKey startPath startLatency results s

/-- `find` of `src/index.js` (lines 45–47): start the traversal at
`startKey` with the one-node path, zero latency and no results. -/
def find {σ : Type} (g : Graph) (startKey : Node) (pred : Pred σ) (s : σ) (fuel : Nat) :
    Option (List TResult × σ) :=
  recurse g pred fuel startKey [startKey] (.num 0) [] s

/-- The graph the tests run against: `parse('./data.csv')` is asserted
(line 77 of `src/index.js`) to deep-equal this adjacency structure; the
entry order shown here is the one all the order-sensitive test results
exhibit and matches the edge list of the spec (§8). -/
def refGraph : Graph :=
  [("A", [("B", .num 5), ("D", .num 5), ("E", .num 7)]),
   ("B", [("C", .num 4)]),
   ("C", [("D", .num 8), ("E", .num 2)]),
   ("D", [("C", .num 8), ("E", .num 6)]),
   ("E", [("B", .num 3)])]

/-- The weight lookup of each consecutive pair of a path, in order
(`none` marks a pair with no edge). -/
def pathWeights (g : Graph) : List Node → List (Option JSNum)
  | a :: b :: rest => (neighborsOf g a).lookup b :: pathWeights g (b :: rest)
  | _ => []

/-- Every consecutive pair of the path is an existing edge of the
graph. -/
def edgesOk (g : Graph) : List Node → Bool
  | a :: b :: rest => ((neighborsOf g a).lookup b).isSome && edgesOk g (b :: rest)
  | _ => true

/-- Well-formedness every graph denoted by a JavaScript object has: no
inner mapping repeats a key (object keys are unique). -/
def Graph.WF (g : Graph) : Prop :=
  ∀ p ∈ g, (p.2.map Prod.fst).Nodup

instance (g : Graph) : Decidable (Graph.WF g) := by
  unfold Graph.WF; infer_instance

/-- The invariant of every result the traversal engine produces when
started at `origin`: the path begins at `origin`, every consecutive
pair is an edge, and the recorded latency is the path's edge-weight
sum as `getLatency` computes it. -/
def GoodResult (g : Graph) (origin : Node) (r : TResult) : Prop :=
  r.path.head? = some origin ∧ edgesOk g r.path = true ∧
    getLatency g r.path = .val r.latency

/-- Add a number on the left of a `getLatency` outcome (`'NO SUCH
TRACE'` absorbs). -/
def addResult : JSNum → LatencyResult → LatencyResult
  | a, .val x => .val (a.add x)
  | _, .noSuchTrace => .noSuchTrace

/-- The last node of the non-empty path `prev :: rest`. -/
def lastOf : Node → List Node → Node
  | a, [] => a
  | _, b :: rest => lastOf b rest

/-- The decision function of the test at lines 125–140 of
`src/index.js`: stop past 3 hops, include on landing at `C`. -/
def predMax3Hops : Pred Unit := fun r _ endKey s =>
  (if r.path.length > 4 then STOP else if endKey = "C" then INCLUDE else CONTINUE, s)

/-- The decision function of the test at lines 160–180 of
`src/index.js`: the state is the captured `min` (initially
`Infinity`); stop any branch whose latency is `>= min`, and on landing
at `C` update `min` and include. -/
def predShortestAC : Pred JSNum := fun r _ endKey min =>
  if r.latency.ge min then (STOP, min)
  else if endKey = "C" then (INCLUDE, r.latency)
  else (CONTINUE, min)

/-- A small stateless decision function used to exercise the engine:
include while the candidate path has at most 2 nodes, stop beyond. -/
def predDepth2 : Pred Unit := fun r _ _ s =>
  (if r.path.length ≤ 2 then INCLUDE else STOP, s)

/-- A decision function that always includes. -/
def predAlwaysInclude : Pred Unit := fun _ _ _ s => (INCLUDE, s)

/-- A decision function returning a status that is neither `STOP` nor
`INCLUDE` (nor even `CONTINUE`). -/
def predStatus42 : Pred Unit := fun _ _ _ s => (42, s)

/-- A stand-in for the recursive call that returns its accumulated
results unchanged. -/
def recurseStub : Node → List Node → JSNum → List TResult → Unit → Option (List TResult × Unit) :=
  fun _ _ _ results s => some (results, s)

theorem JSNum.zero_add (w : JSNum) : (JSNum.num 0).add w = w := by
  cases w <;> simp [JSNum.add]

theorem JSNum.add_zero (a : JSNum) : a.add (JSNum.num 0) = a := by
  cases a <;> simp [JSNum.add]

theorem JSNum.add_assoc (a b c : JSNum) : (a.add b).add c = a.add (b.add c) := by
  cases a <;> cases b <;> cases c <;> simp [JSNum.add, Int.add_assoc]

theorem getLatencyAux_add (g : Graph) (a : JSNum) (rest : List Node) :
    ∀ (prev : Node) (b : JSNum),
      getLatencyAux g (a.add b) prev rest = addResult a (getLatencyAux g b prev rest) := by
  induction rest with
  | nil => intro prev b; simp [getLatencyAux, addResult]
  | cons e rest ih =>
    intro prev b
    simp only [getLatencyAux]
    cases h : (neighborsOf g prev).lookup e with
    | none => simp [addResult]
    | some w => simpa [JSNum.add_assoc] using ih e (b.add w)

/-- Normal form of the latency loop: a run from accumulator `acc` is a
run from `0` with `acc` added on the left. -/
theorem aux_eq_addResult (g : Graph) (acc : JSNum) (rest : List Node) (prev : Node) :
    getLatencyAux g acc prev rest = addResult acc (getLatencyAux g (.num 0) prev rest) := by
  have h := getLatencyAux_add g acc rest prev (JSNum.num 0)
  simpa [JSNum.add_zero] using h

theorem getLast?_eq_lastOf (rest : List Node) :
    ∀ p : Node, (p :: rest).getLast? = some (lastOf p rest) := by
  induction rest with
  | nil => intro p; rfl
  | cons b rest ih => intro p; rw [lastOf, ← ih b]; rfl

theorem lastOf_append (e : Node) (rest : List Node) :
    ∀ p : Node, lastOf p (rest ++ [e]) = e := by
  induction rest with
  | nil => intro p; rfl
  | cons b rest ih => intro p; simp only [List.cons_append, lastOf]; exact ih b

theorem getLatencyAux_append (g : Graph) (e : Node) (rest : List Node) :
    ∀ (prev : Node) (acc : JSNum),
      getLatencyAux g acc prev (rest ++ [e]) =
        (match getLatencyAux g acc prev rest with
        | .noSuchTrace => .noSuchTrace
        | .val w =>
          match (neighborsOf g (lastOf prev rest)).lookup e with
          | none => .noSuchTrace
          | some mw => .val (w.add mw)) := by
  induction rest with
  | nil =>
    intro prev acc
    cases h : (neighborsOf g prev).lookup e <;>
      simp [getLatencyAux, lastOf, h]
  | cons b rest ih =>
    intro prev acc
    simp only [List.cons_append, getLatencyAux]
    cases h : (neighborsOf g prev).lookup b with
    | none => simp
    | some w => simpa [lastOf] using ih b (acc.add w)

theorem getLatency_append (g : Graph) (path : List Node) (k e : Node) (acc w : JSNum)
    (hlast : path.getLast? = some k)
    (hval : getLatency g path = .val acc)
    (hw : (neighborsOf g k).lookup e = some w) :
    getLatency g (path ++ [e]) = .val (acc.add w) := by
  cases path with
  | nil => cases hlast
  | cons p rest =>
    rw [getLast?_eq_lastOf] at hlast
    have hk : lastOf p rest = k := Option.some.inj hlast
    simp only [getLatency] at hval
    have hgl : getLatency g ((p :: rest) ++ [e]) = getLatencyAux g (.num 0) p (rest ++ [e]) := rfl
    rw [hgl, getLatencyAux_append, hval]
    simp [hk, hw]

theorem edgesOk_of_aux (g : Graph) (rest : List Node) :
    ∀ (prev : Node) (acc x : JSNum),
      getLatencyAux g acc prev rest = .val x → edgesOk g (prev :: rest) = true := by
  induction rest with
  | nil => intro prev acc x _; rfl
  | cons b rest ih =>
    intro prev acc x h
    simp only [getLatencyAux] at h
    cases hl : (neighborsOf g prev).lookup b with
    | none => rw [hl] at h; cases h
    | some w =>
      rw [hl] at h
      simp only [edgesOk, hl, Option.isSome_some, Bool.true_and]
      exact ih b (acc.add w) x h

theorem edgesOk_of_getLatency (g : Graph) (path : List Node) (x : JSNum)
    (h : getLatency g path = .val x) : edgesOk g path = true := by
  cases path with
  | nil => rfl
  | cons p rest => exact edgesOk_of_aux g rest p (.num 0) x h

theorem lookup_mem {β : Type} {l : List (Node × β)} {k : Node} {v : β}
    (h : l.lookup k = some v) : (k, v) ∈ l := by
  induction l with
  | nil => cases h
  | cons q rest ih =>
    obtain ⟨k₀, v₀⟩ := q
    by_cases hk : k = k₀
    · subst hk
      rw [List.lookup, beq_self_eq_true] at h
      cases h
      exact List.mem_cons_self _ _
    · rw [List.lookup, beq_eq_false_iff_ne.2 hk] at h
      exact List.mem_cons_of_mem _ (ih h)

theorem lookup_of_mem_nodup {β : Type} {l : List (Node × β)} {k : Node} {v : β}
    (hnd : (l.map Prod.fst).Nodup) (hm : (k, v) ∈ l) : l.lookup k = some v := by
  induction l with
  | nil => cases hm
  | cons q rest ih =>
    obtain ⟨k₀, v₀⟩ := q
    simp only [List.map_cons, List.nodup_cons] at hnd
    rcases List.mem_cons.1 hm with heq | hmem
    · cases heq
      rw [List.lookup, beq_self_eq_true]
    · have hk : k ≠ k₀ := by
        rintro rfl
        exact hnd.1 (List.mem_map_of_mem Prod.fst hmem)
      rw [List.lookup, beq_eq_false_iff_ne.2 hk]
      exact ih hnd.2 hmem

/-- Sanity check tying `parse` to the reference graph: the CSV text
with the spec's edge list (§8) parses to exactly `refGraph`. -/
theorem parse_refCsv :
    parse "AB5,AD5,AE7,BC4,CD8,CE2,DC8,DE6,EB3" = refGraph := by decide

theorem recurseEntries_inv {σ : Type} (g : Graph) (origin : Node) (pred : Pred σ)
    (recurseF : Node → List Node → JSNum → List TResult → σ → Option (List TResult × σ))
    (hF : ∀ k p l res s out s₁,
      p.head? = some origin → p.getLast? = some k → getLatency g p = .val l →
      (∀ r ∈ res, GoodResult g origin r) →
      recurseF k p l res s = some (out, s₁) →
      ∀ r ∈ out, GoodResult g origin r)
    (entries : List (Node × JSNum)) :
    ∀ (startKey : Node) (path : List Node) (latency : JSNum)
      (results : List TResult) (s : σ) (out : List TResult) (s₁ : σ),
      (∀ q ∈ entries, (neighborsOf g startKey).lookup q.1 = some q.2) →
      path.head? = some origin → path.getLast? = some startKey →
      getLatency g path = .val latency →
      (∀ r ∈ results, GoodResult g origin r) →
      recurseEntries pred recurseF entries startKey path latency results s = some (out, s₁) →
      ∀ r ∈ out, GoodResult g origin r := by
  induction entries with
  | nil =>
    intro startKey path latency results s out s₁ _ _ _ _ hres hrun
    simp only [recurseEntries, Option.some.injEq, Prod.mk.injEq] at hrun
    obtain ⟨rfl, rfl⟩ := hrun
    exact hres
  | cons q rest ih =>
    obtain ⟨endKey, w⟩ := q
    intro startKey path latency results s out s₁ hq hhead hlast hval hres hrun
    have hw : (neighborsOf g startKey).lookup endKey = some w :=
      hq (endKey, w) (List.mem_cons_self _ _)
    have hqrest : ∀ q ∈ rest, (neighborsOf g startKey).lookup q.1 = some q.2 :=
      fun q hq₀ => hq q (List.mem_cons_of_mem _ hq₀)
    simp only [recurseEntries] at hrun
    cases hps : pred ⟨path ++ [endKey], latency.add w⟩ startKey endKey s with
    | mk status s₂ =>
    rw [hps] at hrun
    by_cases hstop : status = STOP
    · rw [if_pos hstop] at hrun
      exact ih startKey path latency results s₂ out s₁ hqrest hhead hlast hval hres hrun
    · rw [if_neg hstop] at hrun
      have hhead₂ : (path ++ [endKey]).head? = some origin := by
        cases path with
        | nil => cases hhead
        | cons p ps => simpa using hhead
      have hlast₂ : (path ++ [endKey]).getLast? = some endKey := List.getLast?_concat path
      have hval₂ : getLatency g (path ++ [endKey]) = .val (latency.add w) :=
        getLatency_append g path startKey endKey latency w hlast hval hw
      have hresult : GoodResult g origin ⟨path ++ [endKey], latency.add w⟩ :=
        ⟨hhead₂, edgesOk_of_getLatency g _ _ hval₂, hval₂⟩
      have hres₂ : ∀ r ∈ (if status = INCLUDE then
          results ++ [(⟨path ++ [endKey], latency.add w⟩ : TResult)] else results),
          GoodResult g origin r := by
        by_cases hinc : status = INCLUDE
        · rw [if_pos hinc]
          intro r hr
          rcases List.mem_append.1 hr with hr₀ | hr₁
          · exact hres r hr₀
          · rcases List.mem_singleton.1 hr₁ with rfl
            exact hresult
        · rw [if_neg hinc]
          exact hres
      cases hrec : recurseF endKey (path ++ [endKey]) (latency.add w)
          (if status = INCLUDE then
            results ++ [(⟨path ++ [endKey], latency.add w⟩ : TResult)] else results) s₂ with
      | none => rw [hrec] at hrun; cases hrun
      | some pair =>
        obtain ⟨results₂, s₃⟩ := pair
        rw [hrec] at hrun
        have hres₃ : ∀ r ∈ results₂, GoodResult g origin r :=
          hF endKey (path ++ [endKey]) (latency.add w) _ s₂ results₂ s₃
            hhead₂ hlast₂ hval₂ hres₂ hrec
        exact ih startKey path latency results₂ s₃ out s₁ hqrest hhead hlast hval hres₃ hrun

theorem recurse_inv {σ : Type} (g : Graph) (pred : Pred σ) (origin : Node)
    (hWF : Graph.WF g) (fuel : Nat) :
    ∀ (startKey : Node) (path : List Node) (latency : JSNum)
      (results : List TResult) (s : σ) (out : List TResult) (s₁ : σ),
      path.head? = some origin → path.getLast? = some startKey →
      getLatency g path = .val latency →
      (∀ r ∈ results, GoodResult g origin r) →
      recurse g pred fuel startKey path latency results s = some (out, s₁) →
      ∀ r ∈ out, GoodResult g origin r := by
  induction fuel with
  | zero =>
    intro startKey path latency results s out s₁ _ _ _ _ hrun
    cases hrun
  | succ fuel ih =>
    intro startKey path latency results s out s₁ hhead hlast hval hres hrun
    simp only [recurse] at hrun
    have hq : ∀ q ∈ neighborsOf g startKey,
        (neighborsOf g startKey).lookup q.1 = some q.2 := by
      intro q hq₀
      obtain ⟨e, v⟩ := q
      cases hg : g.lookup startKey with
      | none => rw [neighborsOf, hg] at hq₀; cases hq₀
      | some inner =>
        have hinner : neighborsOf g startKey = inner := by rw [neighborsOf, hg]; rfl
        rw [hinner] at hq₀ ⊢
        exact lookup_of_mem_nodup (hWF (startKey, inner) (lookup_mem hg)) hq₀
    exact recurseEntries_inv g origin pred (recurse g pred fuel)
      (fun k p l res s' out' s₂ h₁ h₂ h₃ h₄ h₅ => ih k p l res s' out' s₂ h₁ h₂ h₃ h₄ h₅)
      (neighborsOf g startKey) startKey path latency results s out s₁
      hq hhead hlast hval hres hrun

theorem recurseEntries_mono {σ : Type} (pred : Pred σ)
    (recurseF recurseG : Node → List Node → JSNum → List TResult → σ → Option (List TResult × σ))
    (hmono : ∀ k p l res s out, recurseF k p l res s = some out → recurseG k p l res s = some out)
    (entries : List (Node × JSNum)) :
    ∀ (startKey : Node) (path : List Node) (latency : JSNum)
      (results : List TResult) (s : σ) (out : List TResult × σ),
      recurseEntries pred recurseF entries startKey path latency results s = some out →
      recurseEntries pred recurseG entries startKey path latency results s = some out := by
  induction entries with
  | nil => intro startKey path latency results s out hrun; exact hrun
  | cons q rest ih =>
    obtain ⟨endKey, w⟩ := q
    intro startKey path latency results s out hrun
    simp only [recurseEntries] at hrun ⊢
    cases hps : pred ⟨path ++ [endKey], latency.add w⟩ startKey endKey s with
    | mk status s₂ =>
    rw [hps] at hrun
    dsimp only at hrun ⊢
    by_cases hstop : status = STOP
    · rw [if_pos hstop] at hrun ⊢
      exact ih startKey path latency results s₂ out hrun
    · rw [if_neg hstop] at hrun ⊢
      cases hrec : recurseF endKey (path ++ [endKey]) (latency.add w)
          (if status = INCLUDE then
            results ++ [(⟨path ++ [endKey], latency.add w⟩ : TResult)] else results) s₂ with
      | none => rw [hrec] at hrun; cases hrun
      | some pair =>
        rw [hrec] at hrun
        rw [hmono endKey (path ++ [endKey]) (latency.add w) _ s₂ pair hrec]
        obtain ⟨results₂, s₃⟩ := pair
        exact ih startKey path latency results₂ s₃ out hrun

theorem recurse_mono {σ : Type} (g : Graph) (pred : Pred σ) (fuel : Nat) :
    ∀ (fuel' : Nat), fuel ≤ fuel' →
      ∀ (startKey : Node) (path : List Node) (latency : JSNum)
        (results : List TResult) (s : σ) (out : List TResult × σ),
        recurse g pred fuel startKey path latency results s = some out →
        recurse g pred fuel' startKey path latency results s = some out := by
  induction fuel with
  | zero => intro fuel' _ startKey path latency results s out hrun; cases hrun
  | succ fuel ih =>
    intro fuel' hle startKey path latency results s out hrun
    cases fuel' with
    | zero => exact absurd hle (by omega)
    | succ fuel₂ =>
      have hle₂ : fuel ≤ fuel₂ := Nat.succ_le_succ_iff.1 hle
      simp only [recurse] at hrun ⊢
      exact recurseEntries_mono pred (recurse g pred fuel) (recurse g pred fuel₂)
        (fun k p l res s' out' h => ih fuel₂ hle₂ k p l res s' out' h)
        (neighborsOf g startKey) startKey path latency results s out hrun

/-- C1: every result `{path, latency}` produced by `find` has a path
beginning at the start node, each consecutive pair of the path is an
existing edge of the graph, and the recorded latency is the sum of
those edges' weights (`getLatency` recomputes exactly it).  The graph
well-formedness hypothesis (no inner mapping repeats a key) holds for
every graph denoted by a JavaScript object. -/
theorem find_results_sound {σ : Type} (g : Graph) (startKey : Node) (pred : Pred σ)
    (s : σ) (fuel : Nat) (out : List TResult) (s₁ : σ)
    (hWF : Graph.WF g)
    (hrun : find g startKey pred s fuel = some (out, s₁)) :
    ∀ r ∈ out, r.path.head? = some startKey ∧ edgesOk g r.path = true ∧
      getLatency g r.path = .val r.latency :=
  recurse_inv g pred startKey hWF fuel startKey [startKey] (.num 0) [] s out s₁
    rfl rfl rfl (fun r hr => absurd hr (List.not_mem_nil r)) hrun

/-- Witness for C1 at a concrete run: `find` from `B` with `predDepth2`
produces exactly the result `{path: [B,C], latency: 4}`, and that
result satisfies the invariant. -/
theorem find_results_sound_witness :
    (⟨["B", "C"], JSNum.num 4⟩ : TResult).path.head? = some "B" ∧
    edgesOk refGraph ["B", "C"] = true ∧
    getLatency refGraph ["B", "C"] = .val (JSNum.num 4) := by
  have h := find_results_sound refGraph "B" predDepth2 () 5
    [⟨["B", "C"], JSNum.num 4⟩] () (by decide) (by decide)
  exact h ⟨["B", "C"], JSNum.num 4⟩ (List.mem_singleton.2 rfl)

/-- C2: at each edge extension the engine obeys the three-way decision
contract.  `STOP`: the candidate is not appended and the loop moves to
the next sibling edge without recursing past the candidate.
`INCLUDE`: the candidate is appended to the result sequence and the
traversal recurses from the new node before moving on.  Any other
status (`CONTINUE`): no append, but the traversal still recurses from
the new node. -/
theorem decision_contract {σ : Type} (pred : Pred σ)
    (recurseF : Node → List Node → JSNum → List TResult → σ → Option (List TResult × σ))
    (endKey : Node) (meanLatency : JSNum) (rest : List (Node × JSNum))
    (startKey : Node) (startPath : List Node) (startLatency : JSNum)
    (results : List TResult) (s : σ) (status : Int) (s₁ : σ)
    (hps : pred ⟨startPath ++ [endKey], startLatency.add meanLatency⟩ startKey endKey s
      = (status, s₁)) :
    (status = STOP →
      recurseEntries pred recurseF ((endKey, meanLatency) :: rest)
          startKey startPath startLatency results s =
        recurseEntries pred recurseF rest startKey startPath startLatency results s₁) ∧
    (status = INCLUDE →
      recurseEntries pred recurseF ((endKey, meanLatency) :: rest)
          startKey startPath startLatency results s =
        match recurseF endKey (startPath ++ [endKey]) (startLatency.add meanLatency)
            (results ++ [⟨startPath ++ [endKey], startLatency.add meanLatency⟩]) s₁ with
        | none => none
        | some (results₁, s₂) =>
          recurseEntries pred recurseF rest startKey startPath startLatency results₁ s₂) ∧
    (status ≠ STOP → status ≠ INCLUDE →
      recurseEntries pred recurseF ((endKey, meanLatency) :: rest)
          startKey startPath startLatency results s =
        match recurseF endKey (startPath ++ [endKey]) (startLatency.add meanLatency)
            results s₁ with
        | none => none
        | some (results₁, s₂) =>
          recurseEntries pred recurseF rest startKey startPath startLatency results₁ s₂) := by
  refine ⟨?_, ?_, ?_⟩
  · intro h
    simp only [recurseEntries, hps]
    rw [if_pos h]
  · intro h
    have hne : status ≠ STOP := by rw [h]; decide
    simp only [recurseEntries, hps]
    rw [if_neg hne, if_pos h]
  · intro h₁ h₂
    simp only [recurseEntries, hps]
    rw [if_neg h₁, if_neg h₂]

/-- Witness for C2 at a concrete instance: with an always-`INCLUDE`
predicate the candidate `{path: [A,B], latency: 5}` is appended before
the (stubbed) recursion continues. -/
theorem decision_contract_witness :
    recurseEntries predAlwaysInclude recurseStub [("B", JSNum.num 5)]
        "A" ["A"] (JSNum.num 0) [] () =
      recurseEntries predAlwaysInclude recurseStub []
        "A" ["A"] (JSNum.num 0) [⟨["A", "B"], JSNum.num 5⟩] () := by
  have h := (decision_contract predAlwaysInclude recurseStub "B" (JSNum.num 5) []
    "A" ["A"] (JSNum.num 0) [] () INCLUDE () rfl).2.1 rfl
  exact h.trans (by decide)

/-- C3: on a path all of whose consecutive pairs are edges with
(integer) weights `ws`, `getLatency` returns the arithmetic sum of
`ws`; a single-element path sums to `0`; the reference-graph examples
sum to 9, 5, 13 and 22. -/
theorem getLatency_sum_correct :
    (∀ (g : Graph) (path : List Node) (ws : List Int),
      pathWeights g path = ws.map (fun n => some (JSNum.num n)) →
      getLatency g path = .val (.num ws.sum)) ∧
    (∀ (g : Graph) (a : Node), getLatency g [a] = .val (.num 0)) ∧
    getLatency refGraph ["A", "B", "C"] = .val (.num 9) ∧
    getLatency refGraph ["A", "D"] = .val (.num 5) ∧
    getLatency refGraph ["A", "D", "C"] = .val (.num 13) ∧
    getLatency refGraph ["A", "E", "B", "C", "D"] = .val (.num 22) := by
  refine ⟨?_, fun g a => rfl, by decide, by decide, by decide, by decide⟩
  intro g path
  induction path with
  | nil =>
    intro ws h
    have hws : ws = [] := by
      cases ws with
      | nil => rfl
      | cons w ws' => cases h
    subst hws
    rfl
  | cons a rest ih =>
    cases rest with
    | nil =>
      intro ws h
      have hws : ws = [] := by
        cases ws with
        | nil => rfl
        | cons w ws' => cases h
      subst hws
      rfl
    | cons b rest' =>
      intro ws h
      cases ws with
      | nil => cases h
      | cons w ws' =>
        simp only [pathWeights, List.map_cons] at h
        injection h with h₁ h₂
        have ihv : getLatencyAux g (JSNum.num 0) b rest' = .val (.num ws'.sum) := ih ws' h₂
        show getLatencyAux g (.num 0) a (b :: rest') = .val (.num (w :: ws').sum)
        simp only [getLatencyAux, h₁]
        rw [aux_eq_addResult, ihv]
        simp [addResult, JSNum.add, List.sum_cons]

/-- Witness for C3: the pair lookups along `[A,D,C]` are the edge
weights `5` and `8`, and `getLatency` returns their sum. -/
theorem getLatency_sum_correct_witness :
    pathWeights refGraph ["A", "D", "C"] =
      ([5, 8] : List Int).map (fun n => some (JSNum.num n)) ∧
    getLatency refGraph ["A", "D", "C"] = .val (.num ([5, 8] : List Int).sum) := by
  refine ⟨by decide, ?_⟩
  exact getLatency_sum_correct.1 refGraph ["A", "D", "C"] [5, 8] (by decide)

/-- C4: when some consecutive pair of the path has no edge,
`getLatency` reports `'NO SUCH TRACE'` (a result value, not a raised
exception); in particular on the reference graph for `[A,E,D]`, whose
pair `E→D` has no edge. -/
theorem getLatency_gap_detection :
    (∀ (g : Graph) (path : List Node), none ∈ pathWeights g path →
      getLatency g path = .noSuchTrace) ∧
    getLatency refGraph ["A", "E", "D"] = .noSuchTrace := by
  refine ⟨?_, by decide⟩
  intro g path
  induction path with
  | nil => intro h; simp [pathWeights] at h
  | cons a rest ih =>
    cases rest with
    | nil => intro h; simp [pathWeights] at h
    | cons b rest' =>
      intro h
      show getLatencyAux g (.num 0) a (b :: rest') = .noSuchTrace
      simp only [pathWeights, List.mem_cons] at h
      cases hl : (neighborsOf g a).lookup b with
      | none => simp [getLatencyAux, hl]
      | some w =>
        rcases h with h₀ | h₁
        · rw [hl] at h₀; cases h₀
        · have ihv : getLatencyAux g (JSNum.num 0) b rest' = .noSuchTrace := ih h₁
          simp only [getLatencyAux, hl]
          rw [aux_eq_addResult, ihv]
          rfl

/-- Witness for C4: the pair `E→D` of `[A,E,D]` has no edge, and
`getLatency` reports `'NO SUCH TRACE'` there. -/
theorem getLatency_gap_detection_witness :
    none ∈ pathWeights refGraph ["A", "E", "D"] ∧
    getLatency refGraph ["A", "E", "D"] = .noSuchTrace := by
  refine ⟨by decide, ?_⟩
  exact getLatency_gap_detection.1 refGraph ["A", "E", "D"] (by decide)

/-- Counterexample to C5: `getLatency` applied to the empty path does
not fail — it returns the ordinary sum `0` (the summing loop never
runs), contradicting the claimed `InvalidPathError`. -/
theorem getLatency_empty_counterexample :
    getLatency refGraph [] = .val (.num 0) := rfl

/-- C5 as amended: on an empty path `getLatency` returns `0`, exactly
as it does for a single-element path; no error of any kind is
raised. -/
theorem getLatency_empty_returns_zero :
    ∀ g : Graph, getLatency g [] = .val (.num 0) :=
  fun _ => rfl

/-- Counterexample to C6: the record `"ABx"`, whose weight field
cannot be decoded as a non-negative integer, does not make `parse`
fail — the edge is silently stored with the coerced weight `NaN`. -/
theorem parse_malformed_counterexample :
    parse "ABx" = [("A", [("B", JSNum.nan)])] := by decide

/-- C6 as amended: `parse` performs no validation (its own comment
says "Assumes that the input is in a valid format"): a record whose
weight field does not decode stores its edge with weight `NaN` — it is
neither rejected nor skipped, and can even overwrite a previously
well-formed edge. -/
theorem parse_malformed_stores_nan :
    (∀ (results : Graph) (trace : String),
      jsToNumber (jsSubstr trace 2) = JSNum.nan →
      parseTrace results trace =
        insertEdge results (jsCharAt trace 0) (jsCharAt trace 1) JSNum.nan) ∧
    parse "AB5,ABx" = [("A", [("B", JSNum.nan)])] := by
  refine ⟨?_, by decide⟩
  intro results trace h
  simp only [parseTrace, h]

/-- Witness for C6's amended statement: `"ABx"` has a non-decodable
weight field and is stored as the `NaN`-weighted edge `A→B`. -/
theorem parse_malformed_stores_nan_witness :
    jsToNumber (jsSubstr "ABx" 2) = JSNum.nan ∧
    parseTrace [] "ABx" = insertEdge [] "A" "B" JSNum.nan := by
  refine ⟨by decide, ?_⟩
  have h := parse_malformed_stores_nan.1 [] "ABx" (by decide)
  exact h.trans (by decide)

/-- C7: for a node that is absent from the graph or has an empty inner
mapping, the neighbour lookup `graph[key] || {}` is the empty mapping
(no failure, no null), and `find` from such a node returns the empty
result sequence (for any fuel that lets the top call run). -/
theorem neighbors_empty_find_empty (σ : Type) (g : Graph) (key : Node)
    (h : g.lookup key = none ∨ g.lookup key = some []) :
    neighborsOf g key = [] ∧
    ∀ (pred : Pred σ) (s : σ) (fuel : Nat), find g key pred s (fuel + 1) = some ([], s) := by
  have hn : neighborsOf g key = [] := by
    rcases h with h | h <;> simp [neighborsOf, h]
  refine ⟨hn, ?_⟩
  intro pred s fuel
  simp [find, recurse, hn, recurseEntries]

/-- Witness for C7: `Z` is not a node of the reference graph; its
neighbour mapping is empty and `find` from it returns no results. -/
theorem neighbors_empty_find_empty_witness :
    (refGraph.lookup "Z" = none ∨ refGraph.lookup "Z" = some []) ∧
    neighborsOf refGraph "Z" = [] ∧
    find refGraph "Z" predMax3Hops () 5 = some ([], ()) := by
  refine ⟨Or.inl (by decide), ?_, ?_⟩
  · exact (neighbors_empty_find_empty Unit refGraph "Z" (Or.inl (by decide))).1
  · exact (neighbors_empty_find_empty Unit refGraph "Z" (Or.inl (by decide))).2
      predMax3Hops () 4

/-- C8: on the reference graph, `find` from `C` with the
stop-past-3-hops / include-on-`C` decision function returns exactly
`[{path:[C,D,C], latency:16}, {path:[C,E,B,C], latency:9}]`, in that
order (for every fuel under which the traversal completes; fuel 6
suffices). -/
theorem find_bounded_enumeration (fuel : Nat) (h : 6 ≤ fuel) :
    find refGraph "C" predMax3Hops () fuel =
      some ([⟨["C", "D", "C"], .num 16⟩, ⟨["C", "E", "B", "C"], .num 9⟩], ()) :=
  recurse_mono refGraph predMax3Hops 6 fuel h "C" ["C"] (.num 0) [] () _ (by decide)

/-- Witness for C8 at fuel 10. -/
theorem find_bounded_enumeration_witness :
    6 ≤ 10 ∧
    find refGraph "C" predMax3Hops () 10 =
      some ([⟨["C", "D", "C"], .num 16⟩, ⟨["C", "E", "B", "C"], .num 9⟩], ()) :=
  ⟨by decide, find_bounded_enumeration 10 (by decide)⟩

/-- C9: on the reference graph, `find` from `A` with the
incremental-minimum decision function (state: the running `min`,
initially `Infinity`) ends with `min = 9` and returns exactly the
globally shortest A→C trace `{path:[A,B,C], latency:9}` (for every
fuel under which the traversal completes; fuel 6 suffices). -/
theorem find_incremental_min (fuel : Nat) (h : 6 ≤ fuel) :
    find refGraph "A" predShortestAC JSNum.inf fuel =
      some ([⟨["A", "B", "C"], .num 9⟩], JSNum.num 9) :=
  recurse_mono refGraph predShortestAC 6 fuel h "A" ["A"] (.num 0) [] JSNum.inf _ (by decide)

/-- Witness for C9 at fuel 10. -/
theorem find_incremental_min_witness :
    6 ≤ 10 ∧
    find refGraph "A" predShortestAC JSNum.inf 10 =
      some ([⟨["A", "B", "C"], .num 9⟩], JSNum.num 9) :=
  ⟨by decide, find_incremental_min 10 (by decide)⟩

/-- C10: a status that is neither exactly `STOP` nor exactly `INCLUDE`
(the source compares with `===`) behaves as `CONTINUE`: the candidate
is not appended and the traversal still recurses from the new node. -/
theorem nonmatching_status_continues {σ : Type} (pred : Pred σ)
    (recurseF : Node → List Node → JSNum → List TResult → σ → Option (List TResult × σ))
    (endKey : Node) (meanLatency : JSNum) (rest : List (Node × JSNum))
    (startKey : Node) (startPath : List Node) (startLatency : JSNum)
    (results : List TResult) (s : σ) (status : Int) (s₁ : σ)
    (hps : pred ⟨startPath ++ [endKey], startLatency.add meanLatency⟩ startKey endKey s
      = (status, s₁))
    (hstop : status ≠ STOP) (hinc : status ≠ INCLUDE) :
    recurseEntries pred recurseF ((endKey, meanLatency) :: rest)
        startKey startPath startLatency results s =
      match recurseF endKey (startPath ++ [endKey]) (startLatency.add meanLatency)
          results s₁ with
      | none => none
      | some (results₁, s₂) =>
        recurseEntries pred recurseF rest startKey startPath startLatency results₁ s₂ := by
  simp only [recurseEntries, hps]
  rw [if_neg hstop, if_neg hinc]

/-- Witness for C10: the status `42` (neither `STOP` nor `INCLUDE` nor
even `CONTINUE`) is treated like `CONTINUE` — the candidate
`{path: [A,B], latency: 5}` is not appended and the (stubbed) recursion
still proceeds. -/
theorem nonmatching_status_continues_witness :
    recurseEntries predStatus42 recurseStub [("B", JSNum.num 5)]
        "A" ["A"] (JSNum.num 0) [] () =
      recurseEntries predStatus42 recurseStub []
        "A" ["A"] (JSNum.num 0) [] () := by
  have h := nonmatching_status_continues predStatus42 recurseStub "B" (JSNum.num 5) []
    "A" ["A"] (JSNum.num 0) [] () 42 () rfl (by decide) (by decide)
  exact h.trans (by decide)

end Instana
